import Mathlib

/-!
# StockTerm: watchlist store, watchlist service and batch fetch

A shallow embedding of `internal/config/config.go`, `internal/watchlist/watchlist.go`,
`internal/api/yahoo.go` and `NewStockData` of `internal/model/stock.go`, together with
theorems about the embedded functions.

Modelling decisions

* A Go `string` is modelled by the list of its Unicode code points (`Str`), i.e. the
  strings considered are valid UTF-8 text.  Byte-wise comparison of UTF-8 text is
  comparison of the code point sequences, so `sort.Strings` orders `Str` by the
  lexicographic order on `List Char`.
* `strings.ToUpper` maps every rune through `unicode.ToUpper`.  That table belongs to
  the Go library; the embedding takes the rune map as a parameter `up`, so every
  universally quantified theorem holds for the real table.  Closed examples use
  `asciiUpper`, which agrees with `unicode.ToUpper` on ASCII text.
* The file system is reduced to the one file at `Config.WatchlistPath`: a `Store` is
  `none` when the file does not exist and `some content` when it does.  Reading an
  existing file and writing the file succeed; the parent directory is the one that
  `DefaultConfig` creates, so the `MkdirAll` branch of `SaveWatchlist` has no effect
  on the store.  The error branches of the Go code are kept in the embedding.
* A Go `float64` is modelled by `Float64`: not-a-number, the two infinities, the two
  zeros, and the finite non-zero values by their rational value.  The operations
  follow IEEE 754 on the special values; the rounding of a non-zero exact result to
  binary64 is a parameter `rnd`.
-/

namespace StockTerm

/-! ## Strings -/

/-- A Go string as the sequence of its code points. -/
abbrev Str := List Char

/-- The rune predicate `unicode.IsSpace`: the Latin-1 spaces
`\t \n \v \f \r`, space, U+0085, U+00A0 and the other `White_Space` code points. -/
def isSpace (c : Char) : Bool :=
  let n := c.toNat
  (9 ≤ n && n ≤ 13) || n == 32 || n == 0x85 || n == 0xA0 || n == 0x1680 ||
    (0x2000 ≤ n && n ≤ 0x200A) || n == 0x2028 || n == 0x2029 || n == 0x202F ||
    n == 0x205F || n == 0x3000

/-- The library function `strings.TrimSpace`: leading and trailing white space removed. -/
def TrimSpace (s : Str) : Str :=
  (s.dropWhile isSpace).rdropWhile isSpace

/-- The library function `strings.ToUpper` over the rune map `up` (`unicode.ToUpper`). -/
def ToUpper (up : Char → Char) (s : Str) : Str :=
  s.map up

/-- The rune map `unicode.ToUpper` restricted to ASCII: `a`..`z` go to `A`..`Z`,
every other rune is left alone.  Used for closed examples on ASCII text. -/
def asciiUpper (c : Char) : Char :=
  if 97 ≤ c.toNat ∧ c.toNat ≤ 122 then Char.ofNat (c.toNat - 32) else c

/-- The library function `strings.Split(s, sep)` for a one-rune separator: the pieces
of `s` between the occurrences of `sep`; an `s` without `sep` is the only piece. -/
def Split : Str → Char → List Str
  | [], _ => [[]]
  | c :: cs, sep =>
    if c = sep then [] :: Split cs sep
    else
      match Split cs sep with
      | [] => [[c]]
      | p :: ps => (c :: p) :: ps

/-- The library function `strings.Join(elems, sep)` for a one-rune separator. -/
def Join : List Str → Char → Str
  | [], _ => []
  | [a], _ => a
  | a :: b :: rest, sep => a ++ sep :: Join (b :: rest) sep

/-- The library function `sort.Strings`: the list in increasing order.  The strings are
totally ordered and equal strings are indistinguishable, so the result is the unique
sorted rearrangement, whichever algorithm computes it. -/
def sortStrings (l : List Str) : List Str :=
  l.insertionSort (· ≤ ·)

/-- The expression `strings.TrimSpace(strings.ToUpper(ticker))` of the service. -/
def normalForm (up : Char → Char) (ticker : Str) : Str :=
  TrimSpace (ToUpper up ticker)

/-! ## The store (`internal/config/config.go`) -/

/-- The file at `WatchlistPath`: `none` when it does not exist, else its content. -/
abbrev Store := Option Str

/-- Errors of the file-system calls. -/
inductive IOError where
  | notExist
  | failure
  deriving DecidableEq

/-- Outcome of a call returning `([]string, error)`. -/
inductive Loaded where
  | ok (watchlist : List Str)
  | error (e : IOError)
  deriving DecidableEq

/-- The test `os.IsNotExist(err)` on the error of `os.Stat(c.WatchlistPath)`. -/
def statIsNotExist (fs : Store) : Bool :=
  fs.isNone

/-- The call `os.ReadFile(c.WatchlistPath)`. -/
def osReadFile (fs : Store) : Except IOError Str :=
  match fs with
  | none => .error .notExist
  | some content => .ok content

/-- The call `os.WriteFile(c.WatchlistPath, content, 0644)`: returned error and new file. -/
def osWriteFile (content : Str) (_fs : Store) : Option IOError × Store :=
  (none, some content)

/-- The method `Config.LoadWatchlist`: the returned values and the store afterwards. -/
def LoadWatchlist (fs : Store) : Loaded × Store :=
  if statIsNotExist fs then
    match osWriteFile [] fs with
    | (some err, fs1) => (.error err, fs1)
    | (none, fs1) => (.ok [], fs1)
  else
    match osReadFile fs with
    | .error err => (.error err, fs)
    | .ok content =>
      if content.length = 0 then (.ok [], fs)
      else
        let watchlist := Split content ','
        (.ok (watchlist.map TrimSpace), fs)

/-- The method `Config.SaveWatchlist`: returned error and the store afterwards. -/
def SaveWatchlist (watchlist : List Str) (fs : Store) : Option IOError × Store :=
  let content := Join watchlist ','
  osWriteFile content fs

/-! ## The watchlist service (`internal/watchlist/watchlist.go`) -/

/-- Errors returned by the service, one constructor per `fmt.Errorf` of the source. -/
inductive ServiceError where
  | emptyTicker
  | alreadyInWatchlist (ticker : Str)
  | notInWatchlist (ticker : Str)
  | loadFailed (e : IOError)
  | saveFailed (e : IOError)
  deriving DecidableEq

/-- The method `Service.GetWatchlist`. -/
def GetWatchlist (fs : Store) : Loaded × Store :=
  LoadWatchlist fs

/-- The method `Service.AddTicker`: returned error and the store afterwards. -/
def AddTicker (up : Char → Char) (ticker : Str) (fs : Store) : Option ServiceError × Store :=
  let ticker := TrimSpace (ToUpper up ticker)
  if ticker = [] then (some .emptyTicker, fs)
  else
    match LoadWatchlist fs with
    | (.error err, fs1) => (some (.loadFailed err), fs1)
    | (.ok watchlist, fs1) =>
      if watchlist.any (fun t => t == ticker) then (some (.alreadyInWatchlist ticker), fs1)
      else
        let watchlist := sortStrings (watchlist ++ [ticker])
        match SaveWatchlist watchlist fs1 with
        | (some err, fs2) => (some (.saveFailed err), fs2)
        | (none, fs2) => (none, fs2)

/-- The loop of `Service.RemoveTicker` over the loaded watchlist, on the pair
`(found, newWatchlist)`. -/
def removeLoop (ticker : Str) : List Str → Bool × List Str → Bool × List Str
  | [], acc => acc
  | t :: rest, (found, newWatchlist) =>
    if t ≠ ticker then removeLoop ticker rest (found, newWatchlist ++ [t])
    else removeLoop ticker rest (true, newWatchlist)

/-- The method `Service.RemoveTicker`: returned error and the store afterwards. -/
def RemoveTicker (up : Char → Char) (ticker : Str) (fs : Store) :
    Option ServiceError × Store :=
  let ticker := TrimSpace (ToUpper up ticker)
  if ticker = [] then (some .emptyTicker, fs)
  else
    match LoadWatchlist fs with
    | (.error err, fs1) => (some (.loadFailed err), fs1)
    | (.ok watchlist, fs1) =>
      match removeLoop ticker watchlist (false, []) with
      | (false, _) => (some (.notInWatchlist ticker), fs1)
      | (true, newWatchlist) =>
        match SaveWatchlist newWatchlist fs1 with
        | (some err, fs2) => (some (.saveFailed err), fs2)
        | (none, fs2) => (none, fs2)

/-- The loop of `Service.UpdateWatchlist` building `normalizedTickers`. -/
def normalizeLoop (up : Char → Char) : List Str → List Str → List Str
  | [], normalizedTickers => normalizedTickers
  | ticker :: rest, normalizedTickers =>
    let normalized := TrimSpace (ToUpper up ticker)
    if normalized ≠ [] then normalizeLoop up rest (normalizedTickers ++ [normalized])
    else normalizeLoop up rest normalizedTickers

/-- The method `Service.UpdateWatchlist`: returned error and the store afterwards. -/
def UpdateWatchlist (up : Char → Char) (tickers : List Str) (fs : Store) :
    Option ServiceError × Store :=
  let normalizedTickers := sortStrings (normalizeLoop up tickers [])
  match SaveWatchlist normalizedTickers fs with
  | (some err, fs1) => (some (.saveFailed err), fs1)
  | (none, fs1) => (none, fs1)

/-! ## Batch fetch (`internal/api/yahoo.go`) -/

/-- The loop of `FetchMultipleStocks` on the accumulator `responses`; `fetch` is the
outcome of `FetchStockData` for a ticker and a time range. -/
def fetchLoop {ρ ε : Type} (fetch : Str → Str → Except ε ρ) (timeRange : Str) :
    List Str → List ρ → List ρ
  | [], responses => responses
  | ticker :: rest, responses =>
    match fetch ticker timeRange with
    | .error _ => fetchLoop fetch timeRange rest responses
    | .ok res => fetchLoop fetch timeRange rest (responses ++ [res])

/-- The method `YahooFinanceClient.FetchMultipleStocks`: the responses and the error. -/
def FetchMultipleStocks {ρ ε : Type} (fetch : Str → Str → Except ε ρ)
    (tickers : List Str) (timeRange : Str) : List ρ × Option ε :=
  (fetchLoop fetch timeRange tickers [], none)

/-! ## Vocabulary of the statements -/

/-- Content of the store file once it exists: an absent file is created empty. -/
def contentOf (fs : Store) : Str :=
  fs.getD []

/-- The watchlist that a file content stands for. -/
def parse (content : Str) : List Str :=
  if content = [] then [] else (Split content ',').map TrimSpace

/-- A list of tickers whose elements are trimmed and comma-free. -/
def Clean (w : List Str) : Prop :=
  ∀ t ∈ w, TrimSpace t = t ∧ ',' ∉ t

/-- The non-empty normal forms of a list of raw strings, in input order. -/
def normalForms (up : Char → Char) (raws : List Str) : List Str :=
  (raws.map (normalForm up)).filter (fun t => decide (t ≠ []))

/-- A call of the watchlist service that may change the store. -/
inductive Op where
  | add (raw : Str)
  | remove (raw : Str)
  | replace (raws : List Str)
  deriving DecidableEq

/-- The store after one call. -/
def Op.run (up : Char → Char) : Op → Store → Store
  | .add raw, fs => (AddTicker up raw fs).2
  | .remove raw, fs => (RemoveTicker up raw fs).2
  | .replace raws, fs => (UpdateWatchlist up raws fs).2

/-- The store after a sequence of calls, first call first. -/
def runOps (up : Char → Char) : List Op → Store → Store
  | [], fs => fs
  | op :: rest, fs => runOps up rest (op.run up fs)

/-- No ticker that the call writes has a comma in its normal form. -/
def Op.commaFree (up : Char → Char) : Op → Bool
  | .add raw => decide (',' ∉ normalForm up raw)
  | .remove _ => true
  | .replace raws => decide (∀ t ∈ normalForms up raws, ',' ∉ t)

/-- A replace call whose elements have pairwise different non-empty normal forms;
every other call. -/
def Op.distinct (up : Char → Char) : Op → Bool
  | .replace raws => decide (normalForms up raws).Nodup
  | _ => true

/-- The property carried along a run: the loaded watchlist is sorted, and free of
repetitions when `D` holds. -/
def Inv (D : Prop) (fs : Store) : Prop :=
  (parse (contentOf fs)).Sorted (· ≤ ·) ∧ (D → (parse (contentOf fs)).Nodup)

/-! ## Batch operations of the service and migration -/

/-- The method `Service.AddMultipleTickers`: every ticker goes through `AddTicker`, whose
error is dropped; the returned error is nil. -/
def AddMultipleTickers (up : Char → Char) : List Str → Store → Option ServiceError × Store
  | [], fs => (none, fs)
  | ticker :: rest, fs =>
    let fs1 := (AddTicker up ticker fs).2
    AddMultipleTickers up rest fs1

/-- The method `Service.RemoveMultipleTickers`: every ticker goes through `RemoveTicker`,
whose error is dropped; the returned error is nil. -/
def RemoveMultipleTickers (up : Char → Char) :
    List Str → Store → Option ServiceError × Store
  | [], fs => (none, fs)
  | ticker :: rest, fs =>
    let fs1 := (RemoveTicker up ticker fs).2
    RemoveMultipleTickers up rest fs1

/-- The store after applying a single-ticker operation to each element in list order,
whatever each call returns. -/
def applyEach (op : Str → Store → Option ServiceError × Store) (tickers : List Str)
    (fs : Store) : Store :=
  tickers.foldl (fun s ticker => (op ticker s).2) fs

/-- The method `Config.MigrateFromLegacy`, on the file at `legacyPath` (`none` when it
does not exist) and the store: returned error and the store afterwards.  The legacy
file is only read; `os.Stat` on the store returns a nil error exactly when the store
exists. -/
def MigrateFromLegacy (legacy : Option Str) (fs : Store) : Option IOError × Store :=
  if statIsNotExist legacy then (none, fs)
  else if !statIsNotExist fs then (none, fs)
  else
    match osReadFile legacy with
    | .error err => (some err, fs)
    | .ok content =>
      match osWriteFile content fs with
      | (some err, fs1) => (some err, fs1)
      | (none, fs1) => (none, fs1)

/-! ## Quote snapshot (`internal/model/stock.go`) -/

/-- A Go `float64` value: not-a-number, an infinity, a signed zero, or a finite
non-zero number given by its rational value. -/
inductive Float64 where
  | nan
  | inf (negative : Bool)
  | zero (negative : Bool)
  | num (q : ℚ)
  deriving DecidableEq

/-- The sign bit of a value. -/
def Float64.signBit : Float64 → Bool
  | .nan => false
  | .inf negative => negative
  | .zero negative => negative
  | .num q => decide (q < 0)

/-- IEEE 754 subtraction `x - y`; `rnd` rounds a non-zero exact result to binary64. -/
def Float64.sub (rnd : ℚ → Float64) : Float64 → Float64 → Float64
  | .nan, _ => .nan
  | _, .nan => .nan
  | .inf a, .inf b => if a = b then .nan else .inf a
  | .inf a, _ => .inf a
  | _, .inf b => .inf (!b)
  | .zero a, .zero b => .zero (a && !b)
  | .zero _, .num q => .num (-q)
  | .num p, .zero _ => .num p
  | .num p, .num q => if p = q then .zero false else rnd (p - q)

/-- IEEE 754 division `x / y`: a finite non-zero number over a zero is an infinity,
a zero over a zero is not-a-number; `rnd` rounds a non-zero exact result. -/
def Float64.div (rnd : ℚ → Float64) : Float64 → Float64 → Float64
  | .nan, _ => .nan
  | _, .nan => .nan
  | .inf _, .inf _ => .nan
  | .inf a, y => .inf (xor a y.signBit)
  | x, .inf b => .zero (xor x.signBit b)
  | .zero _, .zero _ => .nan
  | .zero a, .num q => .zero (xor a (decide (q < 0)))
  | .num p, .zero b => .inf (xor (decide (p < 0)) b)
  | .num p, .num q => rnd (p / q)

/-- IEEE 754 multiplication `x * y`; `rnd` rounds a non-zero exact result. -/
def Float64.mul (rnd : ℚ → Float64) : Float64 → Float64 → Float64
  | .nan, _ => .nan
  | _, .nan => .nan
  | .inf _, .zero _ => .nan
  | .zero _, .inf _ => .nan
  | .inf a, y => .inf (xor a y.signBit)
  | x, .inf b => .inf (xor x.signBit b)
  | .zero a, y => .zero (xor a y.signBit)
  | x, .zero b => .zero (xor x.signBit b)
  | .num p, .num q => rnd (p * q)

/-- The fields of `Chart.Result[i].Meta` that `NewStockData` reads. -/
structure ChartMeta where
  Currency : Str
  Symbol : Str
  RegularMarketPrice : Float64
  PreviousClose : Float64

/-- An element of `Chart.Result`. -/
structure ChartResult where
  Meta : ChartMeta

/-- The type `ChartResponse`, reduced to `Chart.Result`. -/
structure ChartResponse where
  Result : List ChartResult

/-- The type `StockData`. -/
structure StockData where
  Ticker : Str
  LastPrice : Float64
  Change : Float64
  ChangePercent : Float64
  PreviousClose : Float64
  Currency : Str

/-- The function `NewStockData`. -/
def NewStockData (rnd : ℚ → Float64) (response : ChartResponse) : StockData :=
  match response.Result with
  | [] => StockData.mk [] (.zero false) (.zero false) (.zero false) (.zero false) []
  | first :: _ =>
    let m := first.Meta
    let diff := Float64.sub rnd m.RegularMarketPrice m.PreviousClose
    let changePercent := Float64.mul rnd (Float64.div rnd diff m.PreviousClose) (.num 100)
    StockData.mk m.Symbol m.RegularMarketPrice diff changePercent m.PreviousClose m.Currency

/-- The comparison `num >= 0` of Go on a `float64`: false for not-a-number. -/
def Float64.geZero : Float64 → Bool
  | .nan => false
  | .inf negative => !negative
  | .zero _ => true
  | .num q => decide (0 ≤ q)

/-- The function `appendPlus` of `internal/ui/table.go`; `sprintf2` stands for
`fmt.Sprintf("%.2f", num)`. -/
def appendPlus (sprintf2 : Float64 → Str) (num : Float64) : Str :=
  if num.geZero then '+' :: sprintf2 num else sprintf2 num

/-! ## Library facts about the string functions -/

theorem Split_eq_splitOn (s : Str) (sep : Char) : Split s sep = s.splitOn sep := by
  induction s with
  | nil => rfl
  | cons c cs ih =>
    unfold Split
    rw [ih]
    simp only [List.splitOn, List.splitOnP_cons]
    by_cases h : c = sep
    · simp [h]
    · have hne : List.splitOnP (· == sep) cs ≠ [] := List.splitOnP_ne_nil _ _
      cases hsp : List.splitOnP (· == sep) cs with
      | nil => exact absurd hsp hne
      | cons p ps => simp [h, List.splitOn, hsp]

theorem Join_eq_intercalate (l : List Str) (sep : Char) :
    Join l sep = [sep].intercalate l := by
  induction l with
  | nil => rfl
  | cons a l ih =>
    cases l with
    | nil => simp [Join, List.intercalate]
    | cons b rest =>
      unfold Join
      rw [ih]
      simp [List.intercalate, List.intersperse]

theorem Split_Join (l : List Str) (sep : Char) (hne : l ≠ [])
    (hfree : ∀ p ∈ l, sep ∉ p) : Split (Join l sep) sep = l := by
  rw [Split_eq_splitOn, Join_eq_intercalate]
  exact List.splitOn_intercalate l sep hfree hne

theorem Join_Split (s : Str) (sep : Char) : Join (Split s sep) sep = s := by
  rw [Split_eq_splitOn, Join_eq_intercalate]
  exact List.intercalate_splitOn s sep

theorem Split_ne_nil (s : Str) (sep : Char) : Split s sep ≠ [] := by
  rw [Split_eq_splitOn]
  exact List.splitOnP_ne_nil _ _

theorem Split_sep_free (s : Str) (sep : Char) : ∀ p ∈ Split s sep, sep ∉ p := by
  induction s with
  | nil => simp [Split]
  | cons c cs ih =>
    unfold Split
    by_cases h : c = sep
    · simpa [h] using ih
    · cases hsp : Split cs sep with
      | nil => simp [h, Ne.symm h]
      | cons p ps =>
        rw [hsp] at ih
        intro q hq
        simp only [h, if_false, List.mem_cons] at hq
        rcases hq with rfl | hq
        · have := ih p (List.mem_cons_self _ _)
          simp [Ne.symm h, this]
        · exact ih q (List.mem_cons_of_mem _ hq)

theorem Join_eq_nil_iff (l : List Str) (sep : Char) :
    Join l sep = [] ↔ l = [] ∨ l = [[]] := by
  match l with
  | [] => simp [Join]
  | [a] => simp [Join]
  | a :: b :: rest => simp [Join]

theorem TrimSpace_subset (s : Str) : ∀ c ∈ TrimSpace s, c ∈ s := by
  intro c hc
  have h1 : c ∈ s.dropWhile isSpace := ( List.rdropWhile_prefix isSpace _).subset hc
  exact (List.dropWhile_suffix isSpace).subset h1

theorem dropWhile_rdropWhile_fixed (p : Char → Bool) (l : Str)
    (h : l.dropWhile p = l) : (l.rdropWhile p).dropWhile p = l.rdropWhile p := by
  obtain ⟨t, ht⟩ := List.rdropWhile_prefix p l
  cases hr : l.rdropWhile p with
  | nil => rfl
  | cons b r =>
    rw [hr] at ht
    subst ht
    have hb : p b = false := by
      by_contra hb
      have hb1 : p b = true := by simpa using hb
      have hlen := congrArg List.length h
      have hs : ((b :: r ++ t).dropWhile p).length ≤ (r ++ t).length := by
        simp only [List.cons_append, List.dropWhile_cons, hb1, if_true]
        exact (List.dropWhile_suffix p).length_le
      simp only [List.cons_append, List.length_cons] at hlen hs
      omega
    simp [List.dropWhile_cons, hb]

theorem TrimSpace_idem (s : Str) : TrimSpace (TrimSpace s) = TrimSpace s := by
  unfold TrimSpace
  rw [dropWhile_rdropWhile_fixed isSpace _ (List.dropWhile_idempotent _ _),
    List.rdropWhile_idempotent]

theorem normalForm_trimmed (up : Char → Char) (raw : Str) :
    TrimSpace (normalForm up raw) = normalForm up raw :=
  TrimSpace_idem _


/-! ## Closed forms of the embedded operations -/

theorem contentOf_some (c : Str) : contentOf (some c) = c := rfl

theorem LoadWatchlist_eq (fs : Store) :
    LoadWatchlist fs = (.ok (parse (contentOf fs)), some (contentOf fs)) := by
  cases fs with
  | none => simp [LoadWatchlist, statIsNotExist, osWriteFile, parse, contentOf]
  | some c =>
    by_cases hc : c = []
    · simp [LoadWatchlist, statIsNotExist, osReadFile, parse, contentOf, hc]
    · simp [LoadWatchlist, statIsNotExist, osReadFile, parse, contentOf, hc]

theorem parse_clean (content : Str) : Clean (parse content) := by
  unfold parse
  split
  · intro t ht
    simp at ht
  · intro t ht
    obtain ⟨p, hp, rfl⟩ := List.mem_map.mp ht
    exact ⟨TrimSpace_idem p, fun hmem => Split_sep_free content ',' p hp
      (TrimSpace_subset p _ hmem)⟩

theorem parse_Join (l : List Str) (hc : Clean l) (hl : l ≠ [[]]) :
    parse (Join l ',') = l := by
  unfold parse
  by_cases hj : Join l ',' = []
  · rcases (Join_eq_nil_iff l ',').mp hj with h | h
    · rw [if_pos hj, h]
    · exact absurd h hl
  · have hne : l ≠ [] := fun h => hj ((Join_eq_nil_iff l ',').mpr (Or.inl h))
    rw [if_neg hj, Split_Join l ',' hne (fun p hp => (hc p hp).2)]
    calc l.map TrimSpace = l.map id :=
          List.map_congr_left (fun p hp => (hc p hp).1)
      _ = l := List.map_id l

theorem SaveWatchlist_eq (l : List Str) (fs : Store) :
    SaveWatchlist l fs = (none, some (Join l ',')) := rfl

theorem removeLoop_eq (ticker : Str) (w : List Str) (found : Bool) (acc : List Str) :
    removeLoop ticker w (found, acc) =
      (found || decide (ticker ∈ w), acc ++ w.filter (fun t => decide (t ≠ ticker))) := by
  induction w generalizing found acc with
  | nil => simp [removeLoop]
  | cons t rest ih =>
    unfold removeLoop
    by_cases h : t = ticker
    · subst h
      simp [ih]
    · have h2 : ¬ ticker = t := fun e => h e.symm
      simp [h, h2, ih]

theorem normalizeLoop_eq (up : Char → Char) (tickers acc : List Str) :
    normalizeLoop up tickers acc =
      acc ++ (tickers.map (normalForm up)).filter (fun t => decide (t ≠ [])) := by
  induction tickers generalizing acc with
  | nil => simp [normalizeLoop]
  | cons t rest ih =>
    unfold normalizeLoop
    by_cases h : TrimSpace (ToUpper up t) = []
    · simp [h, ih, normalForm]
    · simp [h, ih, normalForm]

theorem fetchLoop_eq {ρ ε : Type} (fetch : Str → Str → Except ε ρ) (timeRange : Str)
    (tickers : List Str) (responses : List ρ) :
    fetchLoop fetch timeRange tickers responses =
      responses ++ tickers.filterMap (fun t => (fetch t timeRange).toOption) := by
  induction tickers generalizing responses with
  | nil => simp [fetchLoop]
  | cons t rest ih =>
    unfold fetchLoop
    cases h : fetch t timeRange with
    | error e => simp [ih, h, Except.toOption]
    | ok r => simp [ih, h, Except.toOption]

theorem AddTicker_eq (up : Char → Char) (raw : Str) (fs : Store) :
    AddTicker up raw fs =
      if normalForm up raw = [] then (some .emptyTicker, fs)
      else if normalForm up raw ∈ parse (contentOf fs) then
        (some (.alreadyInWatchlist (normalForm up raw)), some (contentOf fs))
      else (none, some (Join (sortStrings (parse (contentOf fs) ++ [normalForm up raw])) ',')) := by
  unfold AddTicker
  simp only [LoadWatchlist_eq, SaveWatchlist_eq, normalForm]
  by_cases h1 : TrimSpace (ToUpper up raw) = []
  · simp [h1]
  · by_cases h2 : TrimSpace (ToUpper up raw) ∈ parse (contentOf fs)
    · simp [h1, h2]
    · simp [h1, h2]

theorem RemoveTicker_eq (up : Char → Char) (raw : Str) (fs : Store) :
    RemoveTicker up raw fs =
      if normalForm up raw = [] then (some .emptyTicker, fs)
      else if normalForm up raw ∈ parse (contentOf fs) then
        (none, some (Join ((parse (contentOf fs)).filter
          (fun t => decide (t ≠ normalForm up raw))) ','))
      else (some (.notInWatchlist (normalForm up raw)), some (contentOf fs)) := by
  unfold RemoveTicker
  simp only [LoadWatchlist_eq, SaveWatchlist_eq, normalForm, removeLoop_eq]
  by_cases h1 : TrimSpace (ToUpper up raw) = []
  · simp [h1]
  · by_cases h2 : TrimSpace (ToUpper up raw) ∈ parse (contentOf fs)
    · simp [h1, h2]
    · simp [h1, h2]

theorem UpdateWatchlist_eq (up : Char → Char) (tickers : List Str) (fs : Store) :
    UpdateWatchlist up tickers fs =
      (none, some (Join (sortStrings (normalForms up tickers)) ',')) := by
  unfold UpdateWatchlist
  simp [SaveWatchlist_eq, normalizeLoop_eq, normalForms]

theorem sortStrings_sorted (l : List Str) : (sortStrings l).Sorted (· ≤ ·) :=
  List.sorted_insertionSort _ l

theorem sortStrings_perm (l : List Str) : (sortStrings l).Perm l :=
  List.perm_insertionSort _ l

theorem sortStrings_concat (w : List Str) (t : Str) (hw : w.Sorted (· ≤ ·)) :
    sortStrings (w ++ [t]) = w.orderedInsert (· ≤ ·) t := by
  apply List.eq_of_perm_of_sorted (r := (· ≤ ·)) _ (sortStrings_sorted _)
    (hw.orderedInsert t w)
  exact (sortStrings_perm _).trans
    ((List.perm_append_comm).trans (List.perm_orderedInsert _ t w).symm)

theorem Clean_sortStrings (l : List Str) (h : Clean l) : Clean (sortStrings l) :=
  fun t ht => h t ((sortStrings_perm l).subset ht)

/-! ## The sorted-watchlist invariant -/

theorem parse_Join_cases (l : List Str) (hc : Clean l) :
    parse (Join l ',') = l ∨ parse (Join l ',') = [] := by
  by_cases hl : l = [[]]
  · right
    subst hl
    rfl
  · exact Or.inl (parse_Join l hc hl)

theorem normalForms_trimmed (up : Char → Char) (raws : List Str) :
    ∀ t ∈ normalForms up raws, TrimSpace t = t := by
  intro t ht
  obtain ⟨ht1, _⟩ := List.mem_filter.mp ht
  obtain ⟨r, _, rfl⟩ := List.mem_map.mp ht1
  exact normalForm_trimmed up r

theorem Inv_save (D : Prop) (l : List Str) (hc : Clean l) (hs : l.Sorted (· ≤ ·))
    (hn : D → l.Nodup) : Inv D (some (Join l ',')) := by
  unfold Inv
  have hco : contentOf (some (Join l ',')) = Join l ',' := rfl
  rw [hco]
  rcases parse_Join_cases l hc with h | h
  · rw [h]
    exact ⟨hs, hn⟩
  · rw [h]
    exact ⟨List.sorted_nil, fun _ => List.nodup_nil⟩

theorem Inv_touch (D : Prop) (fs : Store) (h : Inv D fs) : Inv D (some (contentOf fs)) := h

theorem Inv_step (D : Prop) (up : Char → Char) (op : Op) (fs : Store) (hinv : Inv D fs)
    (hfree : op.commaFree up = true) (hd : D → op.distinct up = true) :
    Inv D (op.run up fs) := by
  have hclean : Clean (parse (contentOf fs)) := parse_clean _
  cases op with
  | add raw =>
    simp only [Op.run, AddTicker_eq]
    split
    · exact hinv
    · split
      · exact Inv_touch D fs hinv
      · rename_i hne hnot
        have hcf : ',' ∉ normalForm up raw := by simpa [Op.commaFree] using hfree
        apply Inv_save
        · apply Clean_sortStrings
          intro t ht
          rcases List.mem_append.mp ht with h | h
          · exact hclean t h
          · rw [List.mem_singleton.mp h]
            exact ⟨normalForm_trimmed up raw, hcf⟩
        · exact sortStrings_sorted _
        · intro hD
          refine (sortStrings_perm _).nodup_iff.mpr ?_
          refine List.Nodup.append (hinv.2 hD) (List.nodup_singleton _) ?_
          intro t ht hts
          rw [List.mem_singleton.mp hts] at ht
          exact hnot ht
  | remove raw =>
    simp only [Op.run, RemoveTicker_eq]
    split
    · exact hinv
    · split
      · apply Inv_save
        · intro t ht
          exact hclean t (List.mem_filter.mp ht).1
        · exact hinv.1.filter _
        · intro hD
          exact (hinv.2 hD).filter _
      · exact Inv_touch D fs hinv
  | replace raws =>
    simp only [Op.run, UpdateWatchlist_eq]
    have hcf : ∀ t ∈ normalForms up raws, ',' ∉ t := by simpa [Op.commaFree] using hfree
    apply Inv_save
    · apply Clean_sortStrings
      intro t ht
      exact ⟨normalForms_trimmed up raws t ht, hcf t ht⟩
    · exact sortStrings_sorted _
    · intro hD
      have hnd : (normalForms up raws).Nodup := by simpa [Op.distinct] using hd hD
      exact (sortStrings_perm _).nodup_iff.mpr hnd

theorem Inv_runOps (D : Prop) (up : Char → Char) (ops : List Op) (fs : Store)
    (hinv : Inv D fs) (hfree : ∀ op ∈ ops, op.commaFree up = true)
    (hd : D → ∀ op ∈ ops, op.distinct up = true) : Inv D (runOps up ops fs) := by
  induction ops generalizing fs with
  | nil => exact hinv
  | cons op rest ih =>
    unfold runOps
    apply ih
    · exact Inv_step D up op fs hinv (hfree op (List.mem_cons_self _ _))
        (fun hD => hd hD op (List.mem_cons_self _ _))
    · exact fun o ho => hfree o (List.mem_cons_of_mem _ ho)
    · exact fun hD o ho => hd hD o (List.mem_cons_of_mem _ ho)

/-! ## Claims -/

/-- C1 fails as stated: a replace call with a repeated ticker leaves the repetition in
the watchlist, and an add call whose ticker holds a comma leaves an unsorted one. -/
theorem C1_counterexample :
    (LoadWatchlist (runOps asciiUpper [Op.replace ["a".toList, "a".toList]] none)).1
        = Loaded.ok ["A".toList, "A".toList] ∧
      ¬ (["A".toList, "A".toList] : List Str).Nodup ∧
      (LoadWatchlist (runOps asciiUpper [Op.add "b,a".toList] none)).1
        = Loaded.ok ["B".toList, "A".toList] ∧
      ¬ (["B".toList, "A".toList] : List Str).Sorted (· ≤ ·) := by
  decide

/-- C1, amended: from an absent or empty store, after any sequence of add, remove and
replace calls that write only tickers with comma-free normal forms, the watchlist that
`LoadWatchlist` returns is sorted ascending; it has no two equal tickers when every
replace call has elements with pairwise different non-empty normal forms. -/
theorem C1_loaded_sorted_nodup (up : Char → Char) (ops : List Op) (fs0 : Store)
    (h0 : fs0 = none ∨ fs0 = some [])
    (hfree : ∀ op ∈ ops, op.commaFree up = true) :
    ∃ w, (LoadWatchlist (runOps up ops fs0)).1 = Loaded.ok w ∧ w.Sorted (· ≤ ·) ∧
      ((∀ op ∈ ops, op.distinct up = true) → w.Nodup) := by
  have hstart : Inv (∀ op ∈ ops, op.distinct up = true) fs0 := by
    rcases h0 with h | h <;> subst h <;>
      exact ⟨List.sorted_nil, fun _ => List.nodup_nil⟩
  have hend := Inv_runOps _ up ops fs0 hstart hfree (fun h => h)
  exact ⟨parse (contentOf (runOps up ops fs0)), by rw [LoadWatchlist_eq], hend.1, hend.2⟩

/-- C1 at a concrete run: add, add again, replace, remove, add on the absent store. -/
theorem C1_loaded_sorted_nodup_witness :
    ((none : Store) = none ∨ (none : Store) = some []) ∧
      (∀ op ∈ [Op.add " msft ".toList, Op.add "aapl".toList, Op.add "MSFT".toList,
          Op.replace ["tsla".toList, "ibm".toList, " ".toList], Op.remove "ibm".toList,
          Op.add "goog".toList], op.commaFree asciiUpper = true) ∧
      ∃ w, (LoadWatchlist (runOps asciiUpper
          [Op.add " msft ".toList, Op.add "aapl".toList, Op.add "MSFT".toList,
            Op.replace ["tsla".toList, "ibm".toList, " ".toList], Op.remove "ibm".toList,
            Op.add "goog".toList] none)).1 = Loaded.ok w ∧ w.Sorted (· ≤ ·) ∧
        ((∀ op ∈ [Op.add " msft ".toList, Op.add "aapl".toList, Op.add "MSFT".toList,
          Op.replace ["tsla".toList, "ibm".toList, " ".toList], Op.remove "ibm".toList,
          Op.add "goog".toList], op.distinct asciiUpper = true) → w.Nodup) :=
  ⟨Or.inl rfl, by decide,
    C1_loaded_sorted_nodup asciiUpper _ none (Or.inl rfl) (by decide)⟩


/-- C2: when the normal form `t` of `raw` is non-empty and comma-free and the loaded
watchlist `w` is sorted and does not contain `t`, `AddTicker raw` returns no error and
`GetWatchlist` afterwards returns `w` with `t` inserted at its sorted position. -/
theorem C2_add_inserts_at_sorted_position (up : Char → Char) (raw : Str) (fs : Store)
    (w : List Str) (hne : normalForm up raw ≠ []) (hfree : ',' ∉ normalForm up raw)
    (hload : (LoadWatchlist fs).1 = Loaded.ok w) (hsorted : w.Sorted (· ≤ ·))
    (hnot : normalForm up raw ∉ w) :
    (AddTicker up raw fs).1 = none ∧
      (GetWatchlist (AddTicker up raw fs).2).1
        = Loaded.ok (w.orderedInsert (· ≤ ·) (normalForm up raw)) := by
  rw [LoadWatchlist_eq] at hload
  have hw : parse (contentOf fs) = w := by simpa using hload
  have hclean : Clean w := hw ▸ parse_clean _
  rw [AddTicker_eq, if_neg hne, hw, if_neg hnot]
  refine ⟨rfl, ?_⟩
  have hcl : Clean (sortStrings (w ++ [normalForm up raw])) := by
    apply Clean_sortStrings
    intro t ht
    rcases List.mem_append.mp ht with h | h
    · exact hclean t h
    · rw [List.mem_singleton.mp h]
      exact ⟨normalForm_trimmed up raw, hfree⟩
  have hsingle : sortStrings (w ++ [normalForm up raw]) ≠ [[]] := by
    intro h
    have hmem : normalForm up raw ∈ sortStrings (w ++ [normalForm up raw]) :=
      (sortStrings_perm _).symm.subset (by simp)
    rw [h] at hmem
    exact hne (List.mem_singleton.mp hmem)
  simp only [GetWatchlist, LoadWatchlist_eq, contentOf_some]
  rw [parse_Join _ hcl hsingle, sortStrings_concat w _ hsorted]

/-- C2 on the empty store: adding `" aapl "` and listing yields `["AAPL"]`. -/
theorem C2_add_inserts_at_sorted_position_witness :
    normalForm asciiUpper " aapl ".toList ≠ [] ∧
      ',' ∉ normalForm asciiUpper " aapl ".toList ∧
      (LoadWatchlist (some [])).1 = Loaded.ok [] ∧
      ([] : List Str).Sorted (· ≤ ·) ∧
      normalForm asciiUpper " aapl ".toList ∉ ([] : List Str) ∧
      (AddTicker asciiUpper " aapl ".toList (some [])).1 = none ∧
      (GetWatchlist (AddTicker asciiUpper " aapl ".toList (some [])).2).1
        = Loaded.ok (([] : List Str).orderedInsert (· ≤ ·)
            (normalForm asciiUpper " aapl ".toList)) ∧
      (GetWatchlist (AddTicker asciiUpper " aapl ".toList (some [])).2).1
        = Loaded.ok ["AAPL".toList] :=
  ⟨by decide, by decide, by decide, by decide, by decide,
    (C2_add_inserts_at_sorted_position asciiUpper " aapl ".toList (some []) []
      (by decide) (by decide) (by decide) (by decide) (by decide)).1,
    (C2_add_inserts_at_sorted_position asciiUpper " aapl ".toList (some []) []
      (by decide) (by decide) (by decide) (by decide) (by decide)).2,
    by decide⟩

/-- C3 fails as stated: on the absent store `AddTicker "a,b"` succeeds, and the second
`AddTicker "a,b"` succeeds as well and changes the store. -/
theorem C3_counterexample :
    AddTicker asciiUpper "a,b".toList none = (none, some "A,B".toList) ∧
      AddTicker asciiUpper "a,b".toList (some "A,B".toList)
        = (none, some "A,A,B,B".toList) ∧
      (AddTicker asciiUpper "a,b".toList (some "A,B".toList)).1
        ≠ some (ServiceError.alreadyInWatchlist (normalForm asciiUpper "a,b".toList)) ∧
      (AddTicker asciiUpper "a,b".toList (some "A,B".toList)).2 ≠ some "A,B".toList := by
  decide

/-- C3, amended: when the normal form of `x` is comma-free and `AddTicker x` succeeds,
a second `AddTicker x` fails with the already-in-the-watchlist error and leaves the
store as the first call left it. -/
theorem C3_second_add_rejected (up : Char → Char) (x : Str) (fs : Store)
    (hfree : ',' ∉ normalForm up x) (hfirst : (AddTicker up x fs).1 = none) :
    AddTicker up x (AddTicker up x fs).2
      = (some (ServiceError.alreadyInWatchlist (normalForm up x)), (AddTicker up x fs).2) := by
  have hclean : Clean (parse (contentOf fs)) := parse_clean _
  have hfirst1 := hfirst
  rw [AddTicker_eq] at hfirst1
  by_cases hne : normalForm up x = []
  · rw [if_pos hne] at hfirst1
    exact absurd hfirst1 (by simp)
  · by_cases hin : normalForm up x ∈ parse (contentOf fs)
    · rw [if_neg hne, if_pos hin] at hfirst1
      exact absurd hfirst1 (by simp)
    · have hres : AddTicker up x fs
          = (none, some (Join (sortStrings (parse (contentOf fs) ++ [normalForm up x])) ',')) := by
        rw [AddTicker_eq, if_neg hne, if_neg hin]
      have hcl : Clean (sortStrings (parse (contentOf fs) ++ [normalForm up x])) := by
        apply Clean_sortStrings
        intro t ht
        rcases List.mem_append.mp ht with h | h
        · exact hclean t h
        · rw [List.mem_singleton.mp h]
          exact ⟨normalForm_trimmed up x, hfree⟩
      have hmem : normalForm up x ∈ sortStrings (parse (contentOf fs) ++ [normalForm up x]) :=
        (sortStrings_perm _).symm.subset (by simp)
      have hsingle : sortStrings (parse (contentOf fs) ++ [normalForm up x]) ≠ [[]] := by
        intro h
        rw [h] at hmem
        exact hne (List.mem_singleton.mp hmem)
      rw [hres, AddTicker_eq, if_neg hne]
      simp only [contentOf_some]
      rw [parse_Join _ hcl hsingle, if_pos hmem]

/-- C3 at `x = "aapl"` on the absent store. -/
theorem C3_second_add_rejected_witness :
    ',' ∉ normalForm asciiUpper "aapl".toList ∧
      (AddTicker asciiUpper "aapl".toList none).1 = none ∧
      AddTicker asciiUpper "aapl".toList (AddTicker asciiUpper "aapl".toList none).2
        = (some (ServiceError.alreadyInWatchlist (normalForm asciiUpper "aapl".toList)),
            (AddTicker asciiUpper "aapl".toList none).2) :=
  ⟨by decide, by decide,
    C3_second_add_rejected asciiUpper "aapl".toList none (by decide) (by decide)⟩

/-- C4 fails as stated: replacing with `["msft", "aapl", "AAPL", " "]` persists
`"AAPL,AAPL,MSFT"`, so the watchlist holds `AAPL` twice. -/
theorem C4_counterexample :
    UpdateWatchlist asciiUpper ["msft".toList, "aapl".toList, "AAPL".toList, " ".toList] none
        = (none, some "AAPL,AAPL,MSFT".toList) ∧
      (LoadWatchlist (UpdateWatchlist asciiUpper
          ["msft".toList, "aapl".toList, "AAPL".toList, " ".toList] none).2).1
        = Loaded.ok ["AAPL".toList, "AAPL".toList, "MSFT".toList] ∧
      (LoadWatchlist (UpdateWatchlist asciiUpper
          ["msft".toList, "aapl".toList, "AAPL".toList, " ".toList] none).2).1
        ≠ Loaded.ok ["AAPL".toList, "MSFT".toList] := by
  decide

/-- C4, amended: `UpdateWatchlist` returns no error and persists the comma-join of the
ascending sorted list of all non-empty normal forms of its elements, one entry per
element (nothing is deduplicated); when these normal forms are comma-free,
`LoadWatchlist` afterwards returns that sorted list. -/
theorem C4_replace_persists_sorted_forms (up : Char → Char) (tickers : List Str)
    (fs : Store) :
    UpdateWatchlist up tickers fs
        = (none, some (Join (sortStrings (normalForms up tickers)) ',')) ∧
      (sortStrings (normalForms up tickers)).Sorted (· ≤ ·) ∧
      (sortStrings (normalForms up tickers)).Perm (normalForms up tickers) ∧
      ((∀ t ∈ normalForms up tickers, ',' ∉ t) →
        (LoadWatchlist (UpdateWatchlist up tickers fs).2).1
          = Loaded.ok (sortStrings (normalForms up tickers))) := by
  refine ⟨UpdateWatchlist_eq up tickers fs, sortStrings_sorted _, sortStrings_perm _, ?_⟩
  intro hfree
  have hcl : Clean (sortStrings (normalForms up tickers)) := by
    apply Clean_sortStrings
    intro t ht
    exact ⟨normalForms_trimmed up tickers t ht, hfree t ht⟩
  have hsingle : sortStrings (normalForms up tickers) ≠ [[]] := by
    intro h
    have hmem : ([] : Str) ∈ normalForms up tickers :=
      (sortStrings_perm _).subset (by rw [h]; simp)
    have := (List.mem_filter.mp hmem).2
    simp at this
  rw [UpdateWatchlist_eq, LoadWatchlist_eq]
  simp only [contentOf_some]
  rw [parse_Join _ hcl hsingle]

/-- C4 at `["msft", "aapl", "AAPL", " "]`: the watchlist read back is
`["AAPL", "AAPL", "MSFT"]`. -/
theorem C4_replace_persists_sorted_forms_witness :
    (∀ t ∈ normalForms asciiUpper
        ["msft".toList, "aapl".toList, "AAPL".toList, " ".toList], ',' ∉ t) ∧
      sortStrings (normalForms asciiUpper
        ["msft".toList, "aapl".toList, "AAPL".toList, " ".toList])
        = ["AAPL".toList, "AAPL".toList, "MSFT".toList] ∧
      (LoadWatchlist (UpdateWatchlist asciiUpper
          ["msft".toList, "aapl".toList, "AAPL".toList, " ".toList] none).2).1
        = Loaded.ok (sortStrings (normalForms asciiUpper
            ["msft".toList, "aapl".toList, "AAPL".toList, " ".toList])) :=
  ⟨by decide, by decide,
    (C4_replace_persists_sorted_forms asciiUpper
      ["msft".toList, "aapl".toList, "AAPL".toList, " ".toList] none).2.2.2 (by decide)⟩


/-- C5: `FetchMultipleStocks` returns a nil error and the responses of exactly the
tickers whose fetch succeeded, in input order; no tickers give no responses; for
`["AAA", "BBB", "CCC"]` with `BBB` failing the result is the responses of `AAA`, `CCC`. -/
theorem C5_fetch_multiple_keeps_successes {ρ ε : Type} (fetch : Str → Str → Except ε ρ)
    (tickers : List Str) (timeRange : Str) :
    FetchMultipleStocks fetch tickers timeRange
        = (tickers.filterMap (fun t => (fetch t timeRange).toOption), none) ∧
      FetchMultipleStocks fetch [] timeRange = ([], none) ∧
      (∀ (a c : ρ) (e : ε), fetch "AAA".toList timeRange = Except.ok a →
        fetch "BBB".toList timeRange = Except.error e →
        fetch "CCC".toList timeRange = Except.ok c →
        FetchMultipleStocks fetch ["AAA".toList, "BBB".toList, "CCC".toList] timeRange
          = ([a, c], none)) := by
  refine ⟨?_, rfl, ?_⟩
  · simp [FetchMultipleStocks, fetchLoop_eq]
  · intro a c e ha hb hc
    unfold FetchMultipleStocks
    simp only [fetchLoop, ha, hb, hc]
    rfl

/-- C5 at a fetch that fails for `BBB` only and answers every other ticker with the
ticker itself. -/
theorem C5_fetch_multiple_keeps_successes_witness :
    FetchMultipleStocks
        (fun t _ => if t = "BBB".toList then (Except.error 404 : Except Nat Str)
          else Except.ok t)
        ["AAA".toList, "BBB".toList, "CCC".toList] "1d".toList
      = (["AAA".toList, "CCC".toList], none) :=
  (C5_fetch_multiple_keeps_successes
    (fun t _ => if t = "BBB".toList then (Except.error 404 : Except Nat Str) else Except.ok t)
    [] "1d".toList).2.2 "AAA".toList "CCC".toList 404 rfl rfl rfl

/-- C6 fails as stated: on the absent store `RemoveTicker "ZZZ"` fails with the
not-in-the-watchlist error, and the store file has been created, empty. -/
theorem C6_counterexample :
    normalForm asciiUpper "ZZZ".toList ≠ [] ∧
      (LoadWatchlist none).1 = Loaded.ok [] ∧
      normalForm asciiUpper "ZZZ".toList ∉ ([] : List Str) ∧
      RemoveTicker asciiUpper "ZZZ".toList none
        = (some (ServiceError.notInWatchlist "ZZZ".toList), some []) ∧
      (RemoveTicker asciiUpper "ZZZ".toList none).2 ≠ none := by
  decide

/-- C6, amended: when the normal form of `raw` is non-empty and not among the loaded
tickers, `RemoveTicker raw` fails with the not-in-the-watchlist error and leaves the
store as `LoadWatchlist` leaves it: an existing store is unchanged, an absent store has
been created empty; the loaded watchlist is the same afterwards. -/
theorem C6_remove_missing_rejected (up : Char → Char) (raw : Str) (fs : Store)
    (w : List Str) (hne : normalForm up raw ≠ [])
    (hload : (LoadWatchlist fs).1 = Loaded.ok w) (hnot : normalForm up raw ∉ w) :
    (RemoveTicker up raw fs).1 = some (ServiceError.notInWatchlist (normalForm up raw)) ∧
      (RemoveTicker up raw fs).2 = (LoadWatchlist fs).2 ∧
      (∀ c, fs = some c → (RemoveTicker up raw fs).2 = fs) ∧
      (fs = none → (RemoveTicker up raw fs).2 = some []) ∧
      (LoadWatchlist (RemoveTicker up raw fs).2).1 = Loaded.ok w := by
  rw [LoadWatchlist_eq] at hload
  have hw : parse (contentOf fs) = w := by simpa using hload
  have hres : RemoveTicker up raw fs
      = (some (ServiceError.notInWatchlist (normalForm up raw)), some (contentOf fs)) := by
    rw [RemoveTicker_eq, if_neg hne, hw, if_neg hnot]
  rw [hres]
  refine ⟨rfl, by rw [LoadWatchlist_eq], ?_, ?_, ?_⟩
  · intro c hc
    subst hc
    rfl
  · intro hnone
    subst hnone
    rfl
  · rw [LoadWatchlist_eq]
    simp only [contentOf_some, hw]

/-- C6 at `remove("ZZZ")` on a store holding `AAPL,MSFT`. -/
theorem C6_remove_missing_rejected_witness :
    normalForm asciiUpper "ZZZ".toList ≠ [] ∧
      (LoadWatchlist (some "AAPL,MSFT".toList)).1
        = Loaded.ok ["AAPL".toList, "MSFT".toList] ∧
      normalForm asciiUpper "ZZZ".toList ∉ ["AAPL".toList, "MSFT".toList] ∧
      (RemoveTicker asciiUpper "ZZZ".toList (some "AAPL,MSFT".toList)).1
        = some (ServiceError.notInWatchlist (normalForm asciiUpper "ZZZ".toList)) ∧
      (RemoveTicker asciiUpper "ZZZ".toList (some "AAPL,MSFT".toList)).2
        = some "AAPL,MSFT".toList :=
  ⟨by decide, by decide, by decide,
    (C6_remove_missing_rejected asciiUpper "ZZZ".toList (some "AAPL,MSFT".toList)
      ["AAPL".toList, "MSFT".toList] (by decide) (by decide) (by decide)).1,
    (C6_remove_missing_rejected asciiUpper "ZZZ".toList (some "AAPL,MSFT".toList)
      ["AAPL".toList, "MSFT".toList] (by decide) (by decide) (by decide)).2.2.1 _ rfl⟩

/-- C7: when the loaded watchlist `w` has only non-empty tickers and contains the normal
form `t` of `raw`, `RemoveTicker raw` returns no error and `GetWatchlist` afterwards
returns `w` without `t`, the other tickers in their order in `w`; a sorted `w` stays
sorted and removing the only ticker leaves the empty watchlist. -/
theorem C7_remove_present_deletes (up : Char → Char) (raw : Str) (fs : Store)
    (w : List Str) (hload : (LoadWatchlist fs).1 = Loaded.ok w)
    (hnonempty : ∀ t ∈ w, t ≠ []) (hin : normalForm up raw ∈ w) :
    (RemoveTicker up raw fs).1 = none ∧
      (GetWatchlist (RemoveTicker up raw fs).2).1
        = Loaded.ok (w.filter (fun u => decide (u ≠ normalForm up raw))) ∧
      (w.filter (fun u => decide (u ≠ normalForm up raw))).Sublist w ∧
      (w.Sorted (· ≤ ·) →
        (w.filter (fun u => decide (u ≠ normalForm up raw))).Sorted (· ≤ ·)) ∧
      (w = [normalForm up raw] →
        (GetWatchlist (RemoveTicker up raw fs).2).1 = Loaded.ok []) := by
  rw [LoadWatchlist_eq] at hload
  have hw : parse (contentOf fs) = w := by simpa using hload
  have hclean : Clean w := hw ▸ parse_clean _
  have hne : normalForm up raw ≠ [] := hnonempty _ hin
  have hres : RemoveTicker up raw fs
      = (none, some (Join (w.filter (fun u => decide (u ≠ normalForm up raw))) ',')) := by
    rw [RemoveTicker_eq, if_neg hne, hw, if_pos hin]
  have hcl : Clean (w.filter (fun u => decide (u ≠ normalForm up raw))) :=
    fun t ht => hclean t (List.mem_filter.mp ht).1
  have hsingle : w.filter (fun u => decide (u ≠ normalForm up raw)) ≠ [[]] := by
    intro h
    have hmem : ([] : Str) ∈ w.filter (fun u => decide (u ≠ normalForm up raw)) := by
      rw [h]
      exact List.mem_singleton_self _
    exact hnonempty [] (List.mem_filter.mp hmem).1 rfl
  have hget : (GetWatchlist (RemoveTicker up raw fs).2).1
      = Loaded.ok (w.filter (fun u => decide (u ≠ normalForm up raw))) := by
    rw [hres]
    simp only [GetWatchlist, LoadWatchlist_eq, contentOf_some]
    rw [parse_Join _ hcl hsingle]
  refine ⟨by rw [hres], hget, List.filter_sublist _, fun hs => hs.filter _, ?_⟩
  intro hone
  rw [hget, hone]
  simp

/-- C7 at `remove(" msft ")` on a store holding `AAPL,MSFT,TSLA`. -/
theorem C7_remove_present_deletes_witness :
    (LoadWatchlist (some "AAPL,MSFT,TSLA".toList)).1
        = Loaded.ok ["AAPL".toList, "MSFT".toList, "TSLA".toList] ∧
      (∀ t ∈ ["AAPL".toList, "MSFT".toList, "TSLA".toList], t ≠ []) ∧
      normalForm asciiUpper " msft ".toList ∈ ["AAPL".toList, "MSFT".toList, "TSLA".toList] ∧
      (RemoveTicker asciiUpper " msft ".toList (some "AAPL,MSFT,TSLA".toList)).1 = none ∧
      (GetWatchlist (RemoveTicker asciiUpper " msft ".toList
          (some "AAPL,MSFT,TSLA".toList)).2).1
        = Loaded.ok (["AAPL".toList, "MSFT".toList, "TSLA".toList].filter
            (fun u => decide (u ≠ normalForm asciiUpper " msft ".toList))) ∧
      ["AAPL".toList, "MSFT".toList, "TSLA".toList].filter
          (fun u => decide (u ≠ normalForm asciiUpper " msft ".toList))
        = ["AAPL".toList, "TSLA".toList] :=
  ⟨by decide, by decide, by decide,
    (C7_remove_present_deletes asciiUpper " msft ".toList (some "AAPL,MSFT,TSLA".toList)
      ["AAPL".toList, "MSFT".toList, "TSLA".toList] (by decide) (by decide) (by decide)).1,
    (C7_remove_present_deletes asciiUpper " msft ".toList (some "AAPL,MSFT,TSLA".toList)
      ["AAPL".toList, "MSFT".toList, "TSLA".toList] (by decide) (by decide) (by decide)).2.1,
    by decide⟩


/-- C8 fails as stated: the store holds `aapl`, which has the normal form of `AAPL`,
and `AddTicker "AAPL"` succeeds and rewrites the store; and on a store holding an
empty ticker, `AddTicker " "` is rejected as empty, not as already present. -/
theorem C8_counterexample :
    (LoadWatchlist (some "aapl".toList)).1 = Loaded.ok ["aapl".toList] ∧
      normalForm asciiUpper "aapl".toList = normalForm asciiUpper "AAPL".toList ∧
      AddTicker asciiUpper "AAPL".toList (some "aapl".toList)
        = (none, some "AAPL,aapl".toList) ∧
      (LoadWatchlist (some ",".toList)).1 = Loaded.ok [[], []] ∧
      normalForm asciiUpper [] = normalForm asciiUpper " ".toList ∧
      AddTicker asciiUpper " ".toList (some ",".toList)
        = (some ServiceError.emptyTicker, some ",".toList) := by
  decide

/-- C8, amended: membership is decided by comparing the normal form of `raw` with the
tickers as loaded.  When that normal form is non-empty and is an element of the loaded
watchlist, `AddTicker raw` is rejected as already present and the store is not changed. -/
theorem C8_add_rejects_loaded_ticker (up : Char → Char) (raw : Str) (fs : Store)
    (w : List Str) (hload : (LoadWatchlist fs).1 = Loaded.ok w)
    (hne : normalForm up raw ≠ []) (hin : normalForm up raw ∈ w) :
    AddTicker up raw fs
      = (some (ServiceError.alreadyInWatchlist (normalForm up raw)), fs) := by
  rw [LoadWatchlist_eq] at hload
  have hw : parse (contentOf fs) = w := by simpa using hload
  rw [AddTicker_eq, if_neg hne, hw, if_pos hin]
  cases fs with
  | none =>
    rw [← hw] at hin
    exact absurd hin (by simp [parse, contentOf])
  | some c => rfl

/-- C8 at a store holding `AAPL` and the raw string `" aapl "`. -/
theorem C8_add_rejects_loaded_ticker_witness :
    (LoadWatchlist (some "AAPL".toList)).1 = Loaded.ok ["AAPL".toList] ∧
      normalForm asciiUpper " aapl ".toList ≠ [] ∧
      normalForm asciiUpper " aapl ".toList ∈ ["AAPL".toList] ∧
      AddTicker asciiUpper " aapl ".toList (some "AAPL".toList)
        = (some (ServiceError.alreadyInWatchlist (normalForm asciiUpper " aapl ".toList)),
            some "AAPL".toList) :=
  ⟨by decide, by decide, by decide,
    C8_add_rejects_loaded_ticker asciiUpper " aapl ".toList (some "AAPL".toList)
      ["AAPL".toList] (by decide) (by decide) (by decide)⟩

/-- C9: for tickers that are non-empty, trimmed and comma-free, `SaveWatchlist xs`
replaces the store content with the tickers joined by `,`, `LoadWatchlist` afterwards
returns `xs` and leaves the content alone, and saving the loaded list again writes the
same content. -/
theorem C9_save_load_round_trip (xs : List Str) (fs : Store)
    (hxs : ∀ t ∈ xs, t ≠ [] ∧ TrimSpace t = t ∧ ',' ∉ t) :
    SaveWatchlist xs fs = (none, some (Join xs ',')) ∧
      LoadWatchlist (SaveWatchlist xs fs).2 = (Loaded.ok xs, (SaveWatchlist xs fs).2) ∧
      (∀ ys, (LoadWatchlist (SaveWatchlist xs fs).2).1 = Loaded.ok ys →
        SaveWatchlist ys (LoadWatchlist (SaveWatchlist xs fs).2).2
          = (none, (SaveWatchlist xs fs).2)) := by
  have hcl : Clean xs := fun t ht => (hxs t ht).2
  have hsingle : xs ≠ [[]] := by
    intro h
    exact (hxs [] (by rw [h]; exact List.mem_singleton_self _)).1 rfl
  have hloadeq : LoadWatchlist (SaveWatchlist xs fs).2
      = (Loaded.ok xs, (SaveWatchlist xs fs).2) := by
    rw [SaveWatchlist_eq, LoadWatchlist_eq]
    simp only [contentOf_some]
    rw [parse_Join xs hcl hsingle]
  refine ⟨rfl, hloadeq, ?_⟩
  intro ys hys
  rw [hloadeq] at hys ⊢
  have hyx : ys = xs := by
    injection hys with h
    exact h.symm
  rw [hyx]
  rfl

/-- C9 at `["AAPL", "MSFT"]`: the content written is `AAPL,MSFT` and it parses back to
the same list. -/
theorem C9_save_load_round_trip_witness :
    (∀ t ∈ ["AAPL".toList, "MSFT".toList], t ≠ [] ∧ TrimSpace t = t ∧ ',' ∉ t) ∧
      SaveWatchlist ["AAPL".toList, "MSFT".toList] none
        = (none, some (Join ["AAPL".toList, "MSFT".toList] ',')) ∧
      Join ["AAPL".toList, "MSFT".toList] ',' = "AAPL,MSFT".toList ∧
      LoadWatchlist (SaveWatchlist ["AAPL".toList, "MSFT".toList] none).2
        = (Loaded.ok ["AAPL".toList, "MSFT".toList],
            (SaveWatchlist ["AAPL".toList, "MSFT".toList] none).2) :=
  ⟨by decide,
    (C9_save_load_round_trip ["AAPL".toList, "MSFT".toList] none (by decide)).1,
    by decide,
    (C9_save_load_round_trip ["AAPL".toList, "MSFT".toList] none (by decide)).2.1⟩

/-- C10: `LoadWatchlist` returns no error; on an absent store it creates the empty
store and returns the empty list; on an existing empty store it returns the empty list
and not `[""]`; on any other content it returns the pieces of the content between its
commas, each trimmed of leading and trailing white space, in file order, and leaves
the store alone. -/
theorem C10_load_parses_store (fs : Store) :
    (∃ w, (LoadWatchlist fs).1 = Loaded.ok w) ∧
      LoadWatchlist none = (Loaded.ok [], some []) ∧
      LoadWatchlist (some []) = (Loaded.ok [], some []) ∧
      (LoadWatchlist (some [])).1 ≠ Loaded.ok [[]] ∧
      (∀ content, content ≠ [] →
        LoadWatchlist (some content)
          = (Loaded.ok ((content.splitOn ',').map
              (fun p => (p.dropWhile isSpace).rdropWhile isSpace)), some content)) := by
  refine ⟨⟨_, by rw [LoadWatchlist_eq]⟩, rfl, rfl, by decide, ?_⟩
  intro content hne
  rw [LoadWatchlist_eq, contentOf_some, parse, if_neg hne, Split_eq_splitOn]
  rfl

/-- C10 at the content `" aapl , MSFT,,x y "`. -/
theorem C10_load_parses_store_witness :
    " aapl , MSFT,,x y ".toList ≠ [] ∧
      LoadWatchlist (some " aapl , MSFT,,x y ".toList)
        = (Loaded.ok ((" aapl , MSFT,,x y ".toList.splitOn ',').map
            (fun p => (p.dropWhile isSpace).rdropWhile isSpace)),
            some " aapl , MSFT,,x y ".toList) ∧
      (LoadWatchlist (some " aapl , MSFT,,x y ".toList)).1
        = Loaded.ok ["aapl".toList, "MSFT".toList, [], "x y".toList] :=
  ⟨by decide,
    (C10_load_parses_store none).2.2.2.2 " aapl , MSFT,,x y ".toList (by decide),
    by decide⟩

/-! ## Batch operations, quote snapshot and migration -/

theorem Split_append_sep (a s : Str) (sep : Char) :
    Split (a ++ sep :: s) sep = Split a sep ++ Split s sep := by
  induction a with
  | nil => simp [Split]
  | cons c a ih =>
    by_cases h : c = sep
    · simp [Split, h, ih]
    · have hne : Split a sep ≠ [] := Split_ne_nil a sep
      cases hsp : Split a sep with
      | nil => exact absurd hsp hne
      | cons p ps => simp [Split, h, ih, hsp]

theorem mem_Split_Join (l : List Str) (sep : Char) (t : Str) (ht : t ∈ l)
    (hfree : sep ∉ t) : t ∈ Split (Join l sep) sep := by
  have hself : Split t sep = [t] := by
    have h := Split_Join [t] sep (by simp) (by simpa using hfree)
    simpa [Join] using h
  induction l with
  | nil => simp at ht
  | cons a l ih =>
    cases l with
    | nil =>
      have hta : t = a := by simpa using ht
      subst hta
      simp [Join, hself]
    | cons b rest =>
      have hj : Join (a :: b :: rest) sep = a ++ sep :: Join (b :: rest) sep := rfl
      rw [hj, Split_append_sep]
      rcases List.mem_cons.mp ht with h | h
      · subst h
        rw [hself]
        simp
      · exact List.mem_append_right _ (ih h)

theorem mem_parse_Join (l : List Str) (t : Str) (ht : t ∈ l) (hfree : ',' ∉ t)
    (htrim : TrimSpace t = t) (hne : t ≠ []) : t ∈ parse (Join l ',') := by
  have hj : Join l ',' ≠ [] := by
    intro h
    rcases (Join_eq_nil_iff l ',').mp h with h1 | h1
    · rw [h1] at ht
      simp at ht
    · rw [h1] at ht
      exact hne (List.mem_singleton.mp ht)
  rw [parse, if_neg hj]
  exact List.mem_map.mpr ⟨t, mem_Split_Join l ',' t ht hfree, htrim⟩

theorem AddMultipleTickers_eq (up : Char → Char) (tickers : List Str) (fs : Store) :
    AddMultipleTickers up tickers fs = (none, applyEach (AddTicker up) tickers fs) := by
  induction tickers generalizing fs with
  | nil => rfl
  | cons t rest ih =>
    unfold AddMultipleTickers
    rw [ih]
    rfl

theorem RemoveMultipleTickers_eq (up : Char → Char) (tickers : List Str) (fs : Store) :
    RemoveMultipleTickers up tickers fs = (none, applyEach (RemoveTicker up) tickers fs) := by
  induction tickers generalizing fs with
  | nil => rfl
  | cons t rest ih =>
    unfold RemoveMultipleTickers
    rw [ih]
    rfl

theorem applyEach_cons (op : Str → Store → Option ServiceError × Store) (t : Str)
    (rest : List Str) (fs : Store) :
    applyEach op (t :: rest) fs = applyEach op rest (op t fs).2 := rfl

theorem applyEach_keeps (op : Str → Store → Option ServiceError × Store)
    (P : Store → Prop) (hstep : ∀ u fs, P fs → P (op u fs).2) (tickers : List Str)
    (fs : Store) (h : P fs) : P (applyEach op tickers fs) := by
  induction tickers generalizing fs with
  | nil => exact h
  | cons t rest ih =>
    rw [applyEach_cons]
    exact ih _ (hstep t fs h)

theorem applyEach_reaches (op : Str → Store → Option ServiceError × Store)
    (P : Store → Prop) (hstep : ∀ u fs, P fs → P (op u fs).2) (x : Str)
    (hx : ∀ fs, P (op x fs).2) (tickers : List Str) (hmem : x ∈ tickers) (fs : Store) :
    P (applyEach op tickers fs) := by
  induction tickers generalizing fs with
  | nil => simp at hmem
  | cons t rest ih =>
    rw [applyEach_cons]
    rcases List.mem_cons.mp hmem with h | h
    · subst h
      exact applyEach_keeps op P hstep rest _ (hx fs)
    · exact ih h _

theorem AddTicker_keeps_member (up : Char → Char) (t : Str) (hne : t ≠ [])
    (hfree : ',' ∉ t) (htrim : TrimSpace t = t) (u : Str) (fs : Store)
    (h : t ∈ parse (contentOf fs)) : t ∈ parse (contentOf (AddTicker up u fs).2) := by
  rw [AddTicker_eq]
  split
  · exact h
  · split
    · exact h
    · rw [contentOf_some]
      apply mem_parse_Join _ t _ hfree htrim hne
      exact (sortStrings_perm _).symm.subset (List.mem_append_left _ h)

theorem AddTicker_adds_member (up : Char → Char) (x : Str) (hne : normalForm up x ≠ [])
    (hfree : ',' ∉ normalForm up x) (fs : Store) :
    normalForm up x ∈ parse (contentOf (AddTicker up x fs).2) := by
  rw [AddTicker_eq, if_neg hne]
  split
  · rename_i hin
    exact hin
  · rw [contentOf_some]
    apply mem_parse_Join _ _ _ hfree (normalForm_trimmed up x) hne
    exact (sortStrings_perm _).symm.subset (by simp)

theorem not_mem_parse_Join_filter (w : List Str) (hw : Clean w) (p : Str → Bool) (t : Str)
    (h : t ∉ w.filter p) : t ∉ parse (Join (w.filter p) ',') := by
  have hcl : Clean (w.filter p) := fun s hs => hw s (List.mem_filter.mp hs).1
  rcases parse_Join_cases _ hcl with h1 | h1
  · rw [h1]
    exact h
  · rw [h1]
    simp

theorem RemoveTicker_keeps_absent (up : Char → Char) (t : Str) (u : Str) (fs : Store)
    (h : t ∉ parse (contentOf fs)) : t ∉ parse (contentOf (RemoveTicker up u fs).2) := by
  rw [RemoveTicker_eq]
  split
  · exact h
  · split
    · rw [contentOf_some]
      apply not_mem_parse_Join_filter _ (parse_clean _)
      exact fun hm => h (List.mem_filter.mp hm).1
    · exact h

theorem RemoveTicker_removes (up : Char → Char) (x : Str) (hne : normalForm up x ≠ [])
    (fs : Store) : normalForm up x ∉ parse (contentOf (RemoveTicker up x fs).2) := by
  rw [RemoveTicker_eq, if_neg hne]
  split
  · rw [contentOf_some]
    apply not_mem_parse_Join_filter _ (parse_clean _)
    intro hm
    have := (List.mem_filter.mp hm).2
    simp at this
  · rename_i hin
    exact hin

/-- C11: `AddMultipleTickers` and `RemoveMultipleTickers` return no error and leave the
store as applying `AddTicker`, resp. `RemoveTicker`, to each element in list order does,
every individual error dropped.  Hence every element with a non-empty comma-free normal
form is in the watchlist after the batch add, and every element with a non-empty normal
form is out of the watchlist after the batch remove, whatever the other elements are. -/
theorem C11_batch_is_best_effort (up : Char → Char) (tickers : List Str) (fs : Store) :
    AddMultipleTickers up tickers fs = (none, applyEach (AddTicker up) tickers fs) ∧
      RemoveMultipleTickers up tickers fs
        = (none, applyEach (RemoveTicker up) tickers fs) ∧
      (∀ x ∈ tickers, normalForm up x ≠ [] → ',' ∉ normalForm up x →
        ∃ w, (LoadWatchlist (AddMultipleTickers up tickers fs).2).1 = Loaded.ok w ∧
          normalForm up x ∈ w) ∧
      (∀ x ∈ tickers, normalForm up x ≠ [] →
        ∃ w, (LoadWatchlist (RemoveMultipleTickers up tickers fs).2).1 = Loaded.ok w ∧
          normalForm up x ∉ w) := by
  refine ⟨AddMultipleTickers_eq up tickers fs, RemoveMultipleTickers_eq up tickers fs,
    ?_, ?_⟩
  · intro x hx hne hfree
    refine ⟨parse (contentOf (AddMultipleTickers up tickers fs).2),
      by rw [LoadWatchlist_eq], ?_⟩
    rw [AddMultipleTickers_eq]
    exact applyEach_reaches (AddTicker up)
      (fun s => normalForm up x ∈ parse (contentOf s))
      (AddTicker_keeps_member up _ hne hfree (normalForm_trimmed up x)) x
      (AddTicker_adds_member up x hne hfree) tickers hx fs
  · intro x hx hne
    refine ⟨parse (contentOf (RemoveMultipleTickers up tickers fs).2),
      by rw [LoadWatchlist_eq], ?_⟩
    rw [RemoveMultipleTickers_eq]
    exact applyEach_reaches (RemoveTicker up)
      (fun s => normalForm up x ∉ parse (contentOf s))
      (RemoveTicker_keeps_absent up _) x
      (RemoveTicker_removes up x hne) tickers hx fs

/-- C11 at the batch `["", "aapl", "AAPL", "msft"]` on a store holding `AAPL`: the empty
and the already present elements fail, `MSFT` is added all the same; and at the batch
`["zzz", "aapl"]`, where `ZZZ` is not present and `AAPL` is removed all the same. -/
theorem C11_batch_is_best_effort_witness :
    "msft".toList ∈ [[], "aapl".toList, "AAPL".toList, "msft".toList] ∧
      normalForm asciiUpper "msft".toList ≠ [] ∧
      ',' ∉ normalForm asciiUpper "msft".toList ∧
      (∃ w, (LoadWatchlist (AddMultipleTickers asciiUpper
          [[], "aapl".toList, "AAPL".toList, "msft".toList] (some "AAPL".toList)).2).1
            = Loaded.ok w ∧ normalForm asciiUpper "msft".toList ∈ w) ∧
      AddMultipleTickers asciiUpper [[], "aapl".toList, "AAPL".toList, "msft".toList]
          (some "AAPL".toList) = (none, some "AAPL,MSFT".toList) ∧
      "aapl".toList ∈ ["zzz".toList, "aapl".toList] ∧
      (∃ w, (LoadWatchlist (RemoveMultipleTickers asciiUpper
          ["zzz".toList, "aapl".toList] (some "AAPL,MSFT".toList)).2).1
            = Loaded.ok w ∧ normalForm asciiUpper "aapl".toList ∉ w) ∧
      RemoveMultipleTickers asciiUpper ["zzz".toList, "aapl".toList]
          (some "AAPL,MSFT".toList) = (none, some "MSFT".toList) :=
  ⟨by decide, by decide, by decide,
    (C11_batch_is_best_effort asciiUpper [[], "aapl".toList, "AAPL".toList, "msft".toList]
      (some "AAPL".toList)).2.2.1 "msft".toList (by decide) (by decide) (by decide),
    by decide, by decide,
    (C11_batch_is_best_effort asciiUpper ["zzz".toList, "aapl".toList]
      (some "AAPL,MSFT".toList)).2.2.2 "aapl".toList (by decide) (by decide),
    by decide⟩

/-- C12, what the code computes when `previousClose` is exactly 0: `NewStockData`
returns, and for a finite non-zero price the percent change is an infinity (`+Inf` for
the price 150 over `+0`), not the not-a-number value; `appendPlus` then formats that
infinity on its branch for non-negative numbers.  The percent change is not-a-number
only when the price is a zero as well. -/
theorem C12_zero_previous_close_gives_infinity (rnd : ℚ → Float64) (q : ℚ)
    (negative : Bool) (currency symbol : Str) (rest : List ChartResult)
    (sprintf2 : Float64 → Str) :
    (NewStockData rnd ⟨⟨⟨currency, symbol, Float64.num q, Float64.zero negative⟩⟩ :: rest⟩
        ).ChangePercent = Float64.inf (xor (decide (q < 0)) negative) ∧
      (NewStockData rnd
          ⟨[⟨⟨"USD".toList, "AAPL".toList, Float64.num 150, Float64.zero false⟩⟩]⟩
        ).ChangePercent = Float64.inf false ∧
      appendPlus sprintf2 (NewStockData rnd
          ⟨[⟨⟨"USD".toList, "AAPL".toList, Float64.num 150, Float64.zero false⟩⟩]⟩
        ).ChangePercent = '+' :: sprintf2 (Float64.inf false) ∧
      (NewStockData rnd
          ⟨⟨⟨currency, symbol, Float64.zero false, Float64.zero negative⟩⟩ :: rest⟩
        ).ChangePercent = Float64.nan := by
  have h100 : ¬ ((100 : ℚ) < 0) := by norm_num
  have h150 : ¬ ((150 : ℚ) < 0) := by norm_num
  have hex : (NewStockData rnd
      ⟨[⟨⟨"USD".toList, "AAPL".toList, Float64.num 150, Float64.zero false⟩⟩]⟩
        ).ChangePercent = Float64.inf false := by
    simp [NewStockData, Float64.sub, Float64.div, Float64.mul, Float64.signBit, h100, h150]
  refine ⟨?_, hex, ?_, ?_⟩
  · simp [NewStockData, Float64.sub, Float64.div, Float64.mul, Float64.signBit, h100]
  · rw [hex]
    rfl
  · simp [NewStockData, Float64.sub, Float64.div, Float64.mul]

/-- C13: `MigrateFromLegacy` returns no error and leaves the store alone when the legacy
file is missing or the store exists, whatever the legacy content; when the legacy file
exists and the store does not, the store is created with the legacy content verbatim,
and for the legacy content `AAPL,TSLA` `LoadWatchlist` then returns
`["AAPL", "TSLA"]`. -/
theorem C13_migrate_from_legacy (legacy : Option Str) (fs : Store) :
    (legacy = none → MigrateFromLegacy legacy fs = (none, fs)) ∧
      (fs ≠ none → MigrateFromLegacy legacy fs = (none, fs)) ∧
      (∀ content, legacy = some content → fs = none →
        MigrateFromLegacy legacy fs = (none, some content)) ∧
      (LoadWatchlist (MigrateFromLegacy (some "AAPL,TSLA".toList) none).2).1
        = Loaded.ok ["AAPL".toList, "TSLA".toList] := by
  refine ⟨?_, ?_, ?_, by decide⟩
  · intro h
    subst h
    rfl
  · intro h
    cases fs with
    | none => exact absurd rfl h
    | some c => cases legacy <;> rfl
  · intro content hl hf
    subst hl
    subst hf
    rfl

/-- C13 at a missing legacy file, at an existing store with a different legacy content,
and at the legacy content `AAPL,TSLA` with no store. -/
theorem C13_migrate_from_legacy_witness :
    MigrateFromLegacy none (some "MSFT".toList) = (none, some "MSFT".toList) ∧
      (some "MSFT".toList : Store) ≠ none ∧
      MigrateFromLegacy (some "AAPL,TSLA".toList) (some "MSFT".toList)
        = (none, some "MSFT".toList) ∧
      MigrateFromLegacy (some "AAPL,TSLA".toList) none
        = (none, some "AAPL,TSLA".toList) :=
  ⟨(C13_migrate_from_legacy none (some "MSFT".toList)).1 rfl,
    by decide,
    (C13_migrate_from_legacy (some "AAPL,TSLA".toList) (some "MSFT".toList)).2.1
      (by decide),
    (C13_migrate_from_legacy (some "AAPL,TSLA".toList) none).2.2.1 _ rfl rfl⟩

end StockTerm
